import Mathlib

/-!
Verification development for the SLIC superpixel hash-table image-retrieval code
(`SLICHashTable.hpp` and the demo retrieval program).

The C++ code is shallowly embedded: the `HashKey` record and the quantizer
`calculate_hash_key` are translated field by field and statement by statement;
the aggregation pass `SLICHashTable::Hash` becomes an explicit fold over the
row-major list of grid cells with the mutable state (the per-region record
array and the hash table) passed explicitly.  C++ `float` arithmetic is modeled
by exact rational arithmetic, and the C `(int)` cast by truncation toward zero.
The C++ `unordered_map<int, vector<HashKey>>` is modeled as the flat list of
`(key, record)` insertions in insertion order; a bucket is the ordered sublist
of records inserted under one key, which preserves per-bucket insertion order.
-/

namespace SLIC


/-- Per-superpixel record, translated from the C++ `HashKey` struct:
`signed long l_tot, a_tot, b_tot; std::pair<int,int> x_range, y_range;
const cv::Mat *original_image; unsigned long pixel_count;`.
The non-owning image pointer is modeled as a numeric image identifier.
All fields default to zero, matching the `calloc` zero-initialization. -/
structure HashKey where
  l_tot : Int := 0
  a_tot : Int := 0
  b_tot : Int := 0
  x_range : Int × Int := (0, 0)
  y_range : Int × Int := (0, 0)
  original_image : Nat := 0
  pixel_count : Nat := 0
deriving DecidableEq, Repr

/-- Constant `lab_buckets = 16` from the class. -/
def lab_buckets : Int := 16

/-- Constant `lab_bucket_size = 256 / lab_buckets` (integer division, = 16). -/
def lab_bucket_size : Int := 256 / lab_buckets

/-- Constant `max_img_w = 3840`, the fixed reference width. -/
def max_img_w : Int := 3840

/-- Constant `max_img_h = 2160`, the fixed reference height. -/
def max_img_h : Int := 2160

/-- Constant `x_buckets = 10`. -/
def x_buckets : Int := 10

/-- Constant `y_buckets = 10`. -/
def y_buckets : Int := 10

/-- Constant `x_bucket_size = max_img_w / x_buckets` (= 384). -/
def x_bucket_size : Int := max_img_w / x_buckets

/-- Constant `y_bucket_size = max_img_h / y_buckets` (= 216). -/
def y_bucket_size : Int := max_img_h / y_buckets

/-- The `dims` array `{lab_buckets, lab_buckets, lab_buckets, x_buckets, y_buckets}`. -/
def dims : Nat → Int
  | 0 => lab_buckets
  | 1 => lab_buckets
  | 2 => lab_buckets
  | 3 => x_buckets
  | _ => y_buckets

/-- Exact fraction of integers with (by construction) positive denominator.
The C++ quantizer computes with `float`; the embedding models those values as
exact fractions kept unnormalized, so every operation is a plain integer
operation and evaluates inside the kernel. -/
structure Frac where
  num : Int
  den : Int
deriving DecidableEq, Repr

/-- Division of an already-formed fraction by an integer divisor, the model of
float division `q / c` for a positive integer constant `c`. -/
def Frac.divInt (q : Frac) (c : Int) : Frac := ⟨q.num, q.den * c⟩

/-- Truncation toward zero of a fraction, the semantics of the C `(int)` cast
applied to a (nonnegative-or-negative) float value. -/
def ftrunc (q : Frac) : Int := q.num.tdiv q.den

/-- Translation of `SLICHashTable::calculate_hash_key`.  The float averages and
centers are modeled as exact fractions; each `(int)` cast is `ftrunc`; the
`std::max(0, std::min(v, dims[i] - 1))` clamps and the iterated
multiply-and-add are kept statement by statement. -/
def calculate_hash_key (key : HashKey) : Int :=
  if key.pixel_count = 0 then -1 else
    let l_avg : Frac := ⟨key.l_tot, (key.pixel_count : Int)⟩
    let a_avg : Frac := ⟨key.a_tot, (key.pixel_count : Int)⟩
    let b_avg : Frac := ⟨key.b_tot, (key.pixel_count : Int)⟩
    let x_center : Frac := ⟨key.x_range.1 + key.x_range.2, 2⟩
    let y_center : Frac := ⟨key.y_range.1 + key.y_range.2, 2⟩
    let l_bucket : Int := ftrunc (l_avg.divInt lab_bucket_size)
    let a_bucket : Int := ftrunc (a_avg.divInt lab_bucket_size)
    let b_bucket : Int := ftrunc (b_avg.divInt lab_bucket_size)
    let x_bucket : Int := ftrunc (x_center.divInt x_bucket_size)
    let y_bucket : Int := ftrunc (y_center.divInt y_bucket_size)
    let l_bucket : Int := max 0 (min l_bucket (dims 0 - 1))
    let a_bucket : Int := max 0 (min a_bucket (dims 1 - 1))
    let b_bucket : Int := max 0 (min b_bucket (dims 2 - 1))
    let x_bucket : Int := max 0 (min x_bucket (dims 3 - 1))
    let y_bucket : Int := max 0 (min y_bucket (dims 4 - 1))
    let hash_key : Int := l_bucket
    let hash_key : Int := hash_key * dims 1 + a_bucket
    let hash_key : Int := hash_key * dims 2 + b_bucket
    let hash_key : Int := hash_key * dims 3 + x_bucket
    let hash_key : Int := hash_key * dims 4 + y_bucket
    hash_key

/-- Clamp a raw bucket index into `[0, count - 1]`, the spec's per-axis clamp. -/
def clampIdx (v : Int) (count : Int) : Int := max 0 (min v (count - 1))

/-- Mixed-radix combination of (index, radix) pairs by iterated multiply-and-add,
in list order: each new axis's bucket count is the radix multiplier. -/
def mixedRadix (axes : List (Int × Int)) : Int :=
  axes.foldl (fun acc p => acc * p.2 + p.1) 0

/-- The bucket key as the specification describes it: the five per-axis raw
indices (axis value divided by the axis's fixed bucket width, truncated),
each clamped into `[0, bucket_count - 1]`, combined in the published order
color-1, color-2, color-3, spatial-x, spatial-y.  The spatial axis values are
the bounding-box midpoints; the spatial bucket widths come from the fixed
reference resolution `max_img_w × max_img_h`, never from the source image. -/
def specBucketKey (key : HashKey) : Int :=
  mixedRadix
    [ (clampIdx (ftrunc (Frac.divInt ⟨key.l_tot, (key.pixel_count : Int)⟩ lab_bucket_size)) lab_buckets, lab_buckets),
      (clampIdx (ftrunc (Frac.divInt ⟨key.a_tot, (key.pixel_count : Int)⟩ lab_bucket_size)) lab_buckets, lab_buckets),
      (clampIdx (ftrunc (Frac.divInt ⟨key.b_tot, (key.pixel_count : Int)⟩ lab_bucket_size)) lab_buckets, lab_buckets),
      (clampIdx (ftrunc (Frac.divInt ⟨key.x_range.1 + key.x_range.2, 2⟩ x_bucket_size)) x_buckets, x_buckets),
      (clampIdx (ftrunc (Frac.divInt ⟨key.y_range.1 + key.y_range.2, 2⟩ y_bucket_size)) y_buckets, y_buckets) ]

/-- Total bucket count `16 * 16 * 16 * 10 * 10`. -/
def total_bucket_count : Int := lab_buckets * lab_buckets * lab_buckets * x_buckets * y_buckets

/-- Inputs of one `SLICHashTable::Hash` call: the CIELAB image (`cv::Mat` of
3-channel pixels), the same-shaped label grid (`cv::Mat` of `int`), and the
identity of the source image (the `&input_image` pointer stored into each
record, modeled as a numeric identifier). -/
structure ImageGrid where
  rows : Nat
  cols : Nat
  color : Nat → Nat → Int × Int × Int
  label : Nat → Nat → Int
  imgId : Nat

/-- Row-major traversal order of the two nested `for` loops over the grid. -/
def cellList (rows cols : Nat) : List (Nat × Nat) :=
  (List.range rows).flatMap fun r => (List.range cols).map fun c => (r, c)

/-- Mutable state of one `Hash` pass: the `calloc`-ed per-region record array
`superpixels` (as a total function, zero off the touched indices) and the
`hashTable` member, flattened to the list of `(key, record)` insertions in
insertion order. -/
structure AggState where
  sp : Nat → HashKey
  table : List (Int × HashKey)

/-- State at entry of a `Hash` pass: zeroed record array, current table. -/
def initState : AggState := ⟨fun _ => {}, []⟩

/-- Body of the inner loop of `Hash` acting on one record `curr`: accumulate
the three color channels, initialize or extend the bounding box (the source's
`if (curr.x_range.first > col) ...` chains are exactly `min`/`max`), and
increment `pixel_count` — in the source's statement order. -/
def processPixel (imgId : Nat) (pix : Int × Int × Int) (row col : Nat) (k : HashKey) : HashKey :=
  let k := { k with l_tot := k.l_tot + pix.1, a_tot := k.a_tot + pix.2.1,
                    b_tot := k.b_tot + pix.2.2 }
  let k :=
    if k.pixel_count = 0 then
      { k with x_range := ((col : Int), (col : Int)), y_range := ((row : Int), (row : Int)),
               original_image := imgId }
    else
      { k with x_range := (min k.x_range.1 (col : Int), max k.x_range.2 (col : Int)),
               y_range := (min k.y_range.1 (row : Int), max k.y_range.2 (row : Int)) }
  { k with pixel_count := k.pixel_count + 1 }

/-- Effect of one loop iteration of `Hash` on the pass state, for a cell whose
label is a valid index: update the record of region `sp`, and push `(key, curr)`
onto the table when the running count reaches `pixel_count[sp]` and the key is
not the sentinel. -/
def nextState (img : ImageGrid) (expected : Nat → Nat) (st : AggState) (cell : Nat × Nat) :
    AggState :=
  let sp := (img.label cell.1 cell.2).toNat
  let curr := processPixel img.imgId (img.color cell.1 cell.2) cell.1 cell.2 (st.sp sp)
  let table :=
    if curr.pixel_count = expected sp then
      let key := calculate_hash_key curr
      if key ≠ -1 then st.table ++ [(key, curr)] else st.table
    else st.table
  ⟨Function.update st.sp sp curr, table⟩

/-- One loop iteration of `Hash`.  The source indexes `superpixels[sp]` with no
bounds check; an out-of-range label is an out-of-bounds access, i.e. undefined
behavior, which the embedding makes the error outcome (carrying the state at
the moment of the access, so that what had already been inserted is visible). -/
def hashStep (img : ImageGrid) (expected : Nat → Nat) (superpixel_count : Nat)
    (st : AggState) (cell : Nat × Nat) : Except AggState AggState :=
  if 0 ≤ img.label cell.1 cell.2 ∧ img.label cell.1 cell.2 < (superpixel_count : Int) then
    .ok (nextState img expected st cell)
  else .error st

/-- Whole `SLICHashTable::Hash` pass over one image: fold the loop body over
the row-major cell list starting from the zeroed state. -/
def HashRun (img : ImageGrid) (expected : Nat → Nat) (superpixel_count : Nat) :
    Except AggState AggState :=
  (cellList img.rows img.cols).foldlM (hashStep img expected superpixel_count) initState

/-- Whether an aggregation outcome completed without hitting invalid input. -/
def runOk : Except AggState AggState → Bool
  | .ok _ => true
  | .error _ => false

/-- The hash-table content of an aggregation outcome (for the error outcome:
the insertions that had already happened when the pass died). -/
def runTable : Except AggState AggState → List (Int × HashKey)
  | .ok st => st.table
  | .error st => st.table

/-- The per-region record array of an aggregation outcome. -/
def runSp : Except AggState AggState → Nat → HashKey
  | .ok st => st.sp
  | .error st => st.sp

/-- Number of cells of a cell list carrying region label `s`. -/
def countIn (img : ImageGrid) (P : List (Nat × Nat)) (s : Nat) : Nat :=
  P.countP fun rc => decide (img.label rc.1 rc.2 = (s : Int))

/-- Bucket of a key: the records inserted under that key, in insertion order —
the `hashTable[key]` vector. -/
def bucket (table : List (Int × HashKey)) (k : Int) : List HashKey :=
  (table.filter fun e => decide (e.1 = k)).map fun e => e.2

/-- Body of the inner voting loop of `main`: one colliding record increments
the vote count of the image it belongs to, `match_counts[match.original_image]++`. -/
def voteStep (mc : Nat → Nat) (m : HashKey) : Nat → Nat :=
  Function.update mc m.original_image (mc m.original_image + 1)

/-- Body of the outer voting loop of `main`: compute the query record's key,
skip it if it is the sentinel, otherwise walk the colliding bucket. -/
def queryStep (table : List (Int × HashKey)) (mc : Nat → Nat) (q : HashKey) : Nat → Nat :=
  let query_key := calculate_hash_key q
  if query_key = -1 then mc
  else (bucket table query_key).foldl voteStep mc

/-- Translation of the query voting loop of `main`: for each query record whose
key is not the sentinel, walk the records of the colliding bucket and increment
the matched image's entry of `match_counts` (a map defaulting to zero). -/
def matchCounts (table : List (Int × HashKey)) (queries : List HashKey) : Nat → Nat :=
  queries.foldl (queryStep table) fun _ => 0

/-- All (query record, table entry) pairs, query-major. -/
def allPairs (queries : List HashKey) (table : List (Int × HashKey)) :
    List (HashKey × (Int × HashKey)) :=
  queries.flatMap fun q => table.map fun e => (q, e)

/-- The number of (query record, indexed record) pairs whose keys are equal and
not the sentinel and whose indexed record belongs to image `imgId` — the
specification's characterization of a candidate's final vote tally. -/
def collidingPairs (table : List (Int × HashKey)) (queries : List HashKey) (imgId : Nat) : Nat :=
  (allPairs queries table).countP fun p =>
    decide (calculate_hash_key p.1 = calculate_hash_key p.2.2 ∧
      calculate_hash_key p.1 ≠ -1 ∧ p.2.2.original_image = imgId)

/-- Body of the best-match loop of `main`: replace the running best exactly
when the entry's count strictly exceeds the running maximum
(`pair.second > max_matches`). -/
def bmStep (acc : Option Nat × Nat) (e : Nat × Nat) : Option Nat × Nat :=
  if acc.2 < e.2 then (some e.1, e.2) else acc

/-- Translation of the best-match selection loop of `main`: fold over the
entries of `match_counts` keeping the first entry whose count strictly exceeds
the running maximum (initially null / 0). -/
def bestMatch (entries : List (Nat × Nat)) : Option Nat × Nat :=
  entries.foldl bmStep (none, 0)

/-- All labels of cells inside the grid are valid indices into the size-`m`
record array. -/
def InRange (img : ImageGrid) (m : Nat) : Prop :=
  ∀ r, r < img.rows → ∀ c, c < img.cols → 0 ≤ img.label r c ∧ img.label r c < (m : Int)

/-- Count invariant of the aggregation loop: after processing the cells of
`P`, each region record's `pixel_count` is the number of cells of `P` labeled
with that region's identifier. -/
def InvCount (img : ImageGrid) (P : List (Nat × Nat)) (st : AggState) : Prop :=
  ∀ s, (st.sp s).pixel_count = countIn img P s

/-- Regions already pushed onto the hash table after processing the cells of
`P`: a region is inserted exactly when its running count reaches its expected
count, so the inserted regions are those with `1 ≤ expected s ≤ countIn P s`. -/
def completedSet (img : ImageGrid) (expected : Nat → Nat) (m : Nat) (P : List (Nat × Nat)) :
    Finset Nat :=
  (Finset.range m).filter fun s => 1 ≤ expected s ∧ expected s ≤ countIn img P s

/-- Table invariant of the aggregation loop: counts as in `InvCount`; the
table's `pixel_count` total and its length are governed by the completed
regions; every inserted record has a positive count and sits under its own
computed key. -/
def InvTable (img : ImageGrid) (expected : Nat → Nat) (m : Nat) (P : List (Nat × Nat))
    (st : AggState) : Prop :=
  InvCount img P st ∧
  (st.table.map fun e => e.2.pixel_count).sum = (∑ s ∈ completedSet img expected m P, expected s) ∧
  st.table.length = (completedSet img expected m P).card ∧
  ∀ e ∈ st.table, 0 < e.2.pixel_count ∧ e.1 = calculate_hash_key e.2

/-- The final state of a valid-label `Hash` pass as a pure fold. -/
def finalState (img : ImageGrid) (expected : Nat → Nat) : AggState :=
  (cellList img.rows img.cols).foldl (nextState img expected) initState

/-- Every record reachable from the hash table after a `Hash` pass has a
strictly positive `pixel_count`. -/
def tablePos (img : ImageGrid) (expected : Nat → Nat) (m : Nat) : Prop :=
  ∀ e ∈ runTable (HashRun img expected m), 0 < e.2.pixel_count

/-- Witness grid: a 2×2 image, two vertical-stripe regions labeled by column. -/
def wImg : ImageGrid :=
  { rows := 2, cols := 2, color := fun _ _ => (10, 20, 30), label := fun _ c => (c : Int),
    imgId := 7 }

/-- Containment of a grid cell `(row, col)` in a record's bounding box. -/
def inBBox (k : HashKey) (rc : Nat × Nat) : Prop :=
  k.x_range.1 ≤ (rc.2 : Int) ∧ (rc.2 : Int) ≤ k.x_range.2 ∧
  k.y_range.1 ≤ (rc.1 : Int) ∧ (rc.1 : Int) ≤ k.y_range.2

/-- Bounding-box invariant: after processing the cells of `P`, every cell of
`P` lies inside the bounding box of its region's running record. -/
def SeenBBox (img : ImageGrid) (P : List (Nat × Nat)) (st : AggState) : Prop :=
  ∀ (s : Nat) (rc : Nat × Nat), rc ∈ P → img.label rc.1 rc.2 = (s : Int) →
    inBBox (st.sp s) rc

/-- Table-origin invariant (for correct expected counts): every record in the
table is the running record of some region `s < m` whose cells have all been
seen already. -/
def FromRegions (img : ImageGrid) (expected : Nat → Nat) (m : Nat) (P : List (Nat × Nat))
    (st : AggState) : Prop :=
  ∀ e ∈ st.table, ∃ s, s < m ∧ e.2 = st.sp s ∧
    countIn img P s = countIn img (cellList img.rows img.cols) s

/-- Every table entry of a completed pass is the final running record of some
valid region identifier. -/
def regionOfTable (img : ImageGrid) (expected : Nat → Nat) (m : Nat) (e : Int × HashKey) :
    Prop :=
  ∃ s, s < m ∧ e.2 = runSp (HashRun img expected m) s

/-- The image's channels are 8-bit values: every color sample of the grid has
all three channels in `[0, 255]`. -/
def ColorBounds (img : ImageGrid) : Prop :=
  ∀ r, r < img.rows → ∀ c, c < img.cols →
    0 ≤ (img.color r c).1 ∧ (img.color r c).1 ≤ 255 ∧
    0 ≤ (img.color r c).2.1 ∧ (img.color r c).2.1 ≤ 255 ∧
    0 ≤ (img.color r c).2.2 ∧ (img.color r c).2.2 ≤ 255

/-- Color-accumulator invariant: each of the three per-region sums is
nonnegative and at most `255` per accumulated pixel. -/
def InvColor (img : ImageGrid) (P : List (Nat × Nat)) (st : AggState) : Prop :=
  ∀ s : Nat,
    0 ≤ (st.sp s).l_tot ∧ (st.sp s).l_tot ≤ 255 * (countIn img P s : Int) ∧
    0 ≤ (st.sp s).a_tot ∧ (st.sp s).a_tot ≤ 255 * (countIn img P s : Int) ∧
    0 ≤ (st.sp s).b_tot ∧ (st.sp s).b_tot ≤ 255 * (countIn img P s : Int)

/-- Input exhibiting an out-of-range label: a 1×2 grid whose first cell is
labeled 0 (a valid region that completes immediately and is inserted) and
whose second cell is labeled 5 with `superpixel_count = 1`. -/
def c5Img : ImageGrid :=
  { rows := 1, cols := 2, color := fun _ _ => (10, 20, 30),
    label := fun _ c => if c = 0 then 0 else 5, imgId := 3 }

example : total_bucket_count = 409600 := by decide

example : calculate_hash_key {} = -1 := by decide

example :
    calculate_hash_key
      { l_tot := 20, a_tot := 40, b_tot := 60, x_range := (0, 0), y_range := (0, 1),
        original_image := 7, pixel_count := 2 } = 1700 := by decide

theorem mem_cellList {rows cols : Nat} {rc : Nat × Nat} :
    rc ∈ cellList rows cols ↔ rc.1 < rows ∧ rc.2 < cols := by
  constructor
  · intro h
    simp only [cellList, List.mem_flatMap, List.mem_map, List.mem_range] at h
    obtain ⟨r, hr, c, hc, hEq⟩ := h
    subst hEq
    exact ⟨hr, hc⟩
  · intro h
    simp only [cellList, List.mem_flatMap, List.mem_map, List.mem_range]
    exact ⟨rc.1, h.1, rc.2, h.2, rfl⟩

theorem length_cellList (rows cols : Nat) : (cellList rows cols).length = rows * cols := by
  simp only [cellList, List.length_flatMap, Function.comp_def, List.length_map,
    List.length_range]
  induction rows with
  | zero => simp
  | succ k ih => rw [List.range_succ, List.map_append, List.sum_append, ih]; simp [Nat.succ_mul]

theorem countIn_nil (img : ImageGrid) (s : Nat) : countIn img [] s = 0 := rfl

theorem countIn_append (img : ImageGrid) (P Q : List (Nat × Nat)) (s : Nat) :
    countIn img (P ++ Q) s = countIn img P s + countIn img Q s :=
  List.countP_append _ _ _

theorem countIn_singleton (img : ImageGrid) (c : Nat × Nat) (s : Nat) :
    countIn img [c] s = if img.label c.1 c.2 = (s : Int) then 1 else 0 := by
  simp [countIn, List.countP_cons]

theorem processPixel_pixel_count (i : Nat) (pix : Int × Int × Int) (r c : Nat) (k : HashKey) :
    (processPixel i pix r c k).pixel_count = k.pixel_count + 1 := by
  simp only [processPixel]
  split <;> rfl

theorem processPixel_l_tot (i : Nat) (pix : Int × Int × Int) (r c : Nat) (k : HashKey) :
    (processPixel i pix r c k).l_tot = k.l_tot + pix.1 := by
  simp only [processPixel]
  split <;> rfl

theorem processPixel_a_tot (i : Nat) (pix : Int × Int × Int) (r c : Nat) (k : HashKey) :
    (processPixel i pix r c k).a_tot = k.a_tot + pix.2.1 := by
  simp only [processPixel]
  split <;> rfl

theorem processPixel_b_tot (i : Nat) (pix : Int × Int × Int) (r c : Nat) (k : HashKey) :
    (processPixel i pix r c k).b_tot = k.b_tot + pix.2.2 := by
  simp only [processPixel]
  split <;> rfl

theorem processPixel_ranges_zero (i : Nat) (pix : Int × Int × Int) (r c : Nat) (k : HashKey)
    (h : k.pixel_count = 0) :
    (processPixel i pix r c k).x_range = ((c : Int), (c : Int)) ∧
    (processPixel i pix r c k).y_range = ((r : Int), (r : Int)) := by
  simp only [processPixel]
  split
  · exact ⟨rfl, rfl⟩
  · next hne => exact absurd h hne

theorem processPixel_ranges_pos (i : Nat) (pix : Int × Int × Int) (r c : Nat) (k : HashKey)
    (h : k.pixel_count ≠ 0) :
    (processPixel i pix r c k).x_range = (min k.x_range.1 (c : Int), max k.x_range.2 (c : Int)) ∧
    (processPixel i pix r c k).y_range = (min k.y_range.1 (r : Int), max k.y_range.2 (r : Int)) := by
  simp only [processPixel]
  split
  · next h0 => exact absurd h0 h
  · exact ⟨rfl, rfl⟩

theorem hashStep_ok (img : ImageGrid) (expected : Nat → Nat) (m : Nat) (st : AggState)
    (c : Nat × Nat) (HL : InRange img m) (hc : c ∈ cellList img.rows img.cols) :
    hashStep img expected m st c = .ok (nextState img expected st c) := by
  have h := HL c.1 (mem_cellList.mp hc).1 c.2 (mem_cellList.mp hc).2
  simp [hashStep, h.1, h.2]

/-- Generic invariant-propagation scheme for the `Hash` pass: if every
iteration on a cell of the grid preserves `Inv` (extending the processed
prefix by that cell), the fold over any contiguous chunk of the row-major
cell list succeeds and preserves `Inv`. -/
theorem foldl_inv (img : ImageGrid) (expected : Nat → Nat) (m : Nat)
    (Inv : List (Nat × Nat) → AggState → Prop)
    (hstep : ∀ done c rest st, done ++ c :: rest = cellList img.rows img.cols →
      Inv done st → Inv (done ++ [c]) (nextState img expected st c))
    (HL : InRange img m) :
    ∀ todo done rest st, done ++ (todo ++ rest) = cellList img.rows img.cols →
      Inv done st →
      todo.foldlM (hashStep img expected m) st = .ok (todo.foldl (nextState img expected) st) ∧
      Inv (done ++ todo) (todo.foldl (nextState img expected) st) := by
  intro todo
  induction todo with
  | nil =>
    intro done rest st hsplit hInv
    exact ⟨rfl, by simpa using hInv⟩
  | cons c todo ih =>
    intro done rest st hsplit hInv
    have hsplit' : done ++ c :: (todo ++ rest) = cellList img.rows img.cols := by
      simpa using hsplit
    have hc : c ∈ cellList img.rows img.cols := by
      rw [← hsplit']
      exact List.mem_append.mpr (Or.inr (List.mem_cons_self c _))
    have hInv' : Inv (done ++ [c]) (nextState img expected st c) :=
      hstep done c (todo ++ rest) st hsplit' hInv
    have hsplit'' : (done ++ [c]) ++ (todo ++ rest) = cellList img.rows img.cols := by
      simpa using hsplit'
    obtain ⟨h1, h2⟩ := ih (done ++ [c]) rest (nextState img expected st c) hsplit'' hInv'
    refine ⟨?_, ?_⟩
    · rw [List.foldlM_cons, hashStep_ok img expected m st c HL hc]
      simpa using h1
    · simpa using h2

theorem clampIdx_nonneg (v c : Int) : 0 ≤ clampIdx v c := le_max_left 0 _

theorem clampIdx_le (v c : Int) (h : 1 ≤ c) : clampIdx v c ≤ c - 1 :=
  max_le (by omega) (min_le_right _ _)

theorem calculate_hash_key_eq_spec (key : HashKey) (h : key.pixel_count ≠ 0) :
    calculate_hash_key key = specBucketKey key := by
  simp only [calculate_hash_key, specBucketKey, mixedRadix, clampIdx, List.foldl, dims,
    if_neg h]
  ring

theorem specKey_bounds_aux (v1 v2 v3 v4 v5 : Int) :
    0 ≤ mixedRadix [(clampIdx v1 16, 16), (clampIdx v2 16, 16), (clampIdx v3 16, 16),
        (clampIdx v4 10, 10), (clampIdx v5 10, 10)] ∧
    mixedRadix [(clampIdx v1 16, 16), (clampIdx v2 16, 16), (clampIdx v3 16, 16),
        (clampIdx v4 10, 10), (clampIdx v5 10, 10)] < 409600 := by
  have h1a := clampIdx_nonneg v1 16
  have h1b := clampIdx_le v1 16 (by norm_num)
  have h2a := clampIdx_nonneg v2 16
  have h2b := clampIdx_le v2 16 (by norm_num)
  have h3a := clampIdx_nonneg v3 16
  have h3b := clampIdx_le v3 16 (by norm_num)
  have h4a := clampIdx_nonneg v4 10
  have h4b := clampIdx_le v4 10 (by norm_num)
  have h5a := clampIdx_nonneg v5 10
  have h5b := clampIdx_le v5 10 (by norm_num)
  simp only [mixedRadix, List.foldl]
  omega

theorem calculate_hash_key_bounds (key : HashKey) (h : key.pixel_count ≠ 0) :
    0 ≤ calculate_hash_key key ∧ calculate_hash_key key < total_bucket_count := by
  rw [calculate_hash_key_eq_spec key h]
  exact specKey_bounds_aux
    (ftrunc (Frac.divInt ⟨key.l_tot, (key.pixel_count : Int)⟩ lab_bucket_size))
    (ftrunc (Frac.divInt ⟨key.a_tot, (key.pixel_count : Int)⟩ lab_bucket_size))
    (ftrunc (Frac.divInt ⟨key.b_tot, (key.pixel_count : Int)⟩ lab_bucket_size))
    (ftrunc (Frac.divInt ⟨key.x_range.1 + key.x_range.2, 2⟩ x_bucket_size))
    (ftrunc (Frac.divInt ⟨key.y_range.1 + key.y_range.2, 2⟩ y_bucket_size))

theorem calculate_hash_key_sentinel (key : HashKey) :
    calculate_hash_key key = -1 ↔ key.pixel_count = 0 := by
  constructor
  · intro h
    by_contra hne
    have hb := (calculate_hash_key_bounds key hne).1
    omega
  · intro h
    simp [calculate_hash_key, h]

/-- C1: for every region record with `pixel_count > 0`, the bucket key computed
by `calculate_hash_key` equals the mixed-radix combination, in the fixed axis
order (color channel 1, channel 2, channel 3, spatial-x, spatial-y), of the
five bucket indices, each the axis value divided by that axis's fixed bucket
width and clamped into `[0, bucket_count - 1]`; the spatial axis values are the
bounding-box midpoints and their bucket widths derive from the fixed reference
resolution `3840 × 2160`, not from the source image's own dimensions. -/
theorem c1_key_is_clamped_mixed_radix (key : HashKey) (h : 0 < key.pixel_count) :
    calculate_hash_key key = specBucketKey key ∧
    x_bucket_size = max_img_w / x_buckets ∧ y_bucket_size = max_img_h / y_buckets ∧
    max_img_w = 3840 ∧ max_img_h = 2160 :=
  ⟨calculate_hash_key_eq_spec key (by omega), rfl, rfl, rfl, rfl⟩

theorem c1_witness :
    calculate_hash_key
        { l_tot := 500, a_tot := 0, b_tot := 0, x_range := (700, 900),
          y_range := (300, 500), original_image := 2, pixel_count := 2 } =
      specBucketKey
        { l_tot := 500, a_tot := 0, b_tot := 0, x_range := (700, 900),
          y_range := (300, 500), original_image := 2, pixel_count := 2 } ∧
    x_bucket_size = max_img_w / x_buckets ∧ y_bucket_size = max_img_h / y_buckets ∧
    max_img_w = 3840 ∧ max_img_h = 2160 :=
  c1_key_is_clamped_mixed_radix
    { l_tot := 500, a_tot := 0, b_tot := 0, x_range := (700, 900),
      y_range := (300, 500), original_image := 2, pixel_count := 2 } (by decide)

/-- C2: for every input record with `pixel_count > 0` — with no precondition on
its color sums or bounding-box coordinates — the key returned by
`calculate_hash_key` lies in `[0, total_bucket_count)` where
`total_bucket_count = 16·16·16·10·10 = 409600`; for `pixel_count = 0` it is the
sentinel `-1`; the result is never negative and never at or above
`total_bucket_count`. -/
theorem c2_key_in_range (key : HashKey) :
    (0 < key.pixel_count →
      0 ≤ calculate_hash_key key ∧ calculate_hash_key key < total_bucket_count) ∧
    (key.pixel_count = 0 → calculate_hash_key key = -1) ∧
    total_bucket_count = 409600 := by
  refine ⟨fun h => calculate_hash_key_bounds key (by omega), fun h => ?_, by decide⟩
  exact (calculate_hash_key_sentinel key).mpr h

theorem c2_witness :
    (0 ≤ calculate_hash_key
        { l_tot := -999999, a_tot := 123456, b_tot := 7, x_range := (-50000, 90000),
          y_range := (70000, -3), original_image := 0, pixel_count := 3 } ∧
      calculate_hash_key
        { l_tot := -999999, a_tot := 123456, b_tot := 7, x_range := (-50000, 90000),
          y_range := (70000, -3), original_image := 0, pixel_count := 3 } <
        total_bucket_count) ∧
    calculate_hash_key { pixel_count := 0 } = -1 ∧
    total_bucket_count = 409600 := by
  refine ⟨(c2_key_in_range
      { l_tot := -999999, a_tot := 123456, b_tot := 7, x_range := (-50000, 90000),
        y_range := (70000, -3), original_image := 0, pixel_count := 3 }).1 (by decide),
    (c2_key_in_range { pixel_count := 0 }).2.1 rfl,
    (c2_key_in_range { pixel_count := 0 }).2.2⟩

theorem label_cast (img : ImageGrid) (m : Nat) (HL : InRange img m) (c : Nat × Nat)
    (hc : c ∈ cellList img.rows img.cols) :
    ((img.label c.1 c.2).toNat : Int) = img.label c.1 c.2 :=
  Int.toNat_of_nonneg (HL c.1 (mem_cellList.mp hc).1 c.2 (mem_cellList.mp hc).2).1

theorem label_toNat_lt (img : ImageGrid) (m : Nat) (HL : InRange img m) (c : Nat × Nat)
    (hc : c ∈ cellList img.rows img.cols) :
    (img.label c.1 c.2).toNat < m := by
  have h := HL c.1 (mem_cellList.mp hc).1 c.2 (mem_cellList.mp hc).2
  omega

theorem invCount_init (img : ImageGrid) : InvCount img [] initState := fun _ => rfl

theorem invCount_step (img : ImageGrid) (expected : Nat → Nat) (m : Nat) (HL : InRange img m)
    (P : List (Nat × Nat)) (st : AggState) (c : Nat × Nat)
    (hc : c ∈ cellList img.rows img.cols) (h : InvCount img P st) :
    InvCount img (P ++ [c]) (nextState img expected st c) := by
  intro s
  have hcast := label_cast img m HL c hc
  rw [countIn_append, countIn_singleton]
  by_cases hs : s = (img.label c.1 c.2).toNat
  · subst hs
    show (Function.update st.sp _ _ _).pixel_count = _
    rw [Function.update_same, processPixel_pixel_count, h, if_pos hcast.symm]
  · have hne : ¬img.label c.1 c.2 = (s : Int) := by
      intro heq
      refine hs ?_
      have hts : (img.label c.1 c.2).toNat = s := by rw [heq, Int.toNat_natCast]
      omega
    show (Function.update st.sp _ _ _).pixel_count = _
    rw [Function.update_noteq hs, h, if_neg hne]
    omega

theorem completedSet_insert_of (img : ImageGrid) (expected : Nat → Nat) (m : Nat)
    (P : List (Nat × Nat)) (c : Nat × Nat) (s0 : Nat) (hlab : img.label c.1 c.2 = (s0 : Int))
    (hs0 : s0 < m) (h : expected s0 = countIn img P s0 + 1) :
    completedSet img expected m (P ++ [c]) = insert s0 (completedSet img expected m P) ∧
    s0 ∉ completedSet img expected m P := by
  constructor
  · ext s
    simp only [completedSet, Finset.mem_filter, Finset.mem_insert, Finset.mem_range]
    rw [countIn_append, countIn_singleton]
    by_cases hs : s = s0
    · subst hs
      rw [if_pos hlab]
      omega
    · have hne : ¬img.label c.1 c.2 = (s : Int) := by
        rw [hlab]
        intro heq
        have hss : s0 = s := by exact_mod_cast heq
        omega
      rw [if_neg hne]
      omega
  · simp only [completedSet, Finset.mem_filter, Finset.mem_range]
    omega

theorem completedSet_same_of (img : ImageGrid) (expected : Nat → Nat) (m : Nat)
    (P : List (Nat × Nat)) (c : Nat × Nat) (s0 : Nat) (hlab : img.label c.1 c.2 = (s0 : Int))
    (h : expected s0 ≠ countIn img P s0 + 1) :
    completedSet img expected m (P ++ [c]) = completedSet img expected m P := by
  ext s
  simp only [completedSet, Finset.mem_filter, Finset.mem_range]
  rw [countIn_append, countIn_singleton]
  by_cases hs : s = s0
  · subst hs
    rw [if_pos hlab]
    omega
  · have hne : ¬img.label c.1 c.2 = (s : Int) := by
      rw [hlab]
      intro heq
      have hss : s0 = s := by exact_mod_cast heq
      omega
    rw [if_neg hne]
    omega

theorem completedSet_nil (img : ImageGrid) (expected : Nat → Nat) (m : Nat) :
    completedSet img expected m [] = ∅ := by
  ext s
  simp only [completedSet, Finset.mem_filter, Finset.mem_range, Finset.not_mem_empty,
    iff_false, countIn_nil]
  omega

theorem invTable_init (img : ImageGrid) (expected : Nat → Nat) (m : Nat) :
    InvTable img expected m [] initState := by
  refine ⟨invCount_init img, ?_, ?_, ?_⟩
  · rw [completedSet_nil]
    rfl
  · rw [completedSet_nil]
    rfl
  · intro e he
    exact absurd he (List.not_mem_nil e)

theorem invTable_step (img : ImageGrid) (expected : Nat → Nat) (m : Nat) (HL : InRange img m)
    (P : List (Nat × Nat)) (st : AggState) (c : Nat × Nat)
    (hc : c ∈ cellList img.rows img.cols) (h : InvTable img expected m P st) :
    InvTable img expected m (P ++ [c]) (nextState img expected st c) := by
  obtain ⟨hcnt, hsum, hlen, hpos⟩ := h
  have hcast := label_cast img m HL c hc
  have hlt := label_toNat_lt img m HL c hc
  set s0 := (img.label c.1 c.2).toNat with hs0def
  set curr := processPixel img.imgId (img.color c.1 c.2) c.1 c.2 (st.sp s0) with hcurrdef
  have hlab : img.label c.1 c.2 = (s0 : Int) := hcast.symm
  have hcc : curr.pixel_count = countIn img P s0 + 1 := by
    rw [hcurrdef, processPixel_pixel_count, hcnt]
  have htab : (nextState img expected st c).table =
      if curr.pixel_count = expected s0 then
        (if calculate_hash_key curr ≠ -1 then
          st.table ++ [(calculate_hash_key curr, curr)]
        else st.table)
      else st.table := rfl
  by_cases hfin : curr.pixel_count = expected s0
  · have hkey : calculate_hash_key curr ≠ -1 := by
      intro hk
      have h0 := (calculate_hash_key_sentinel curr).mp hk
      omega
    have hins := completedSet_insert_of img expected m P c s0 hlab hlt (by omega)
    refine ⟨invCount_step img expected m HL P st c hc hcnt, ?_, ?_, ?_⟩ <;>
      rw [htab, if_pos hfin, if_pos hkey]
    · rw [List.map_append, List.sum_append, hins.1, Finset.sum_insert hins.2, hsum]
      simp only [List.map_cons, List.map_nil, List.sum_cons, List.sum_nil]
      omega
    · rw [List.length_append, hins.1, Finset.card_insert_of_not_mem hins.2, hlen]
      rfl
    · intro e he
      rcases List.mem_append.mp he with h1 | h2
      · exact hpos e h1
      · have he2 : e = (calculate_hash_key curr, curr) := List.mem_singleton.mp h2
        subst he2
        have hcp : 0 < curr.pixel_count := by omega
        exact ⟨hcp, rfl⟩
  · have hsame := completedSet_same_of img expected m P c s0 hlab (by omega)
    refine ⟨invCount_step img expected m HL P st c hc hcnt, ?_, ?_, ?_⟩ <;>
      rw [htab, if_neg hfin]
    · rw [hsame]
      exact hsum
    · rw [hsame]
      exact hlen
    · exact hpos

theorem hashRun_invTable (img : ImageGrid) (expected : Nat → Nat) (m : Nat)
    (HL : InRange img m) :
    HashRun img expected m = .ok (finalState img expected) ∧
    InvTable img expected m (cellList img.rows img.cols) (finalState img expected) := by
  have h := foldl_inv img expected m (InvTable img expected m)
    (fun done c rest st hsplit hInv =>
      invTable_step img expected m HL done st c
        (by
          rw [← hsplit]
          exact List.mem_append.mpr (Or.inr (List.mem_cons_self c rest))) hInv)
    HL (cellList img.rows img.cols) [] [] initState (by simp)
    (invTable_init img expected m)
  simpa [HashRun, finalState] using h

theorem sum_countIn (img : ImageGrid) (m : Nat) (L : List (Nat × Nat))
    (hL : ∀ rc ∈ L, 0 ≤ img.label rc.1 rc.2 ∧ img.label rc.1 rc.2 < (m : Int)) :
    (∑ s ∈ Finset.range m, countIn img L s) = L.length := by
  induction L with
  | nil => simp [countIn_nil]
  | cons x L ih =>
    have hx := hL x (List.mem_cons_self x L)
    have hrest : ∀ rc ∈ L, 0 ≤ img.label rc.1 rc.2 ∧ img.label rc.1 rc.2 < (m : Int) :=
      fun rc hrc => hL rc (List.mem_cons_of_mem x hrc)
    have hcons : ∀ s, countIn img (x :: L) s =
        (if (img.label x.1 x.2).toNat = s then 1 else 0) + countIn img L s := by
      intro s
      have hiff : img.label x.1 x.2 = (s : Int) ↔ (img.label x.1 x.2).toNat = s := by omega
      simp only [countIn, List.countP_cons, decide_eq_true_eq]
      rw [if_congr hiff rfl rfl]
      omega
    rw [Finset.sum_congr rfl fun s _ => hcons s, Finset.sum_add_distrib, ih hrest]
    have hmem : (img.label x.1 x.2).toNat ∈ Finset.range m := by
      simp only [Finset.mem_range]
      omega
    rw [Finset.sum_ite_eq (Finset.range m) ((img.label x.1 x.2).toNat) fun _ => 1,
      if_pos hmem]
    simp [Nat.add_comm]

theorem completedSet_sum_full (img : ImageGrid) (m : Nat) (expected : Nat → Nat)
    (HL : InRange img m)
    (HE : ∀ s, s < m → expected s = countIn img (cellList img.rows img.cols) s) :
    (∑ s ∈ completedSet img expected m (cellList img.rows img.cols), expected s) =
      img.rows * img.cols := by
  have hset : completedSet img expected m (cellList img.rows img.cols) =
      (Finset.range m).filter fun s => 1 ≤ countIn img (cellList img.rows img.cols) s := by
    ext s
    simp only [completedSet, Finset.mem_filter, Finset.mem_range]
    constructor
    · rintro ⟨hm, h1, h2⟩
      refine ⟨hm, ?_⟩
      rw [HE s hm] at h1
      omega
    · rintro ⟨hm, h1⟩
      refine ⟨hm, ?_, ?_⟩ <;> rw [HE s hm] <;> omega
  rw [hset]
  have h1 : ∀ s ∈ (Finset.range m).filter
      (fun s => 1 ≤ countIn img (cellList img.rows img.cols) s),
      expected s = countIn img (cellList img.rows img.cols) s :=
    fun s hs => HE s (Finset.mem_range.mp (Finset.mem_filter.mp hs).1)
  rw [Finset.sum_congr rfl h1, Finset.sum_filter]
  have h2 : ∀ s ∈ Finset.range m,
      (if 1 ≤ countIn img (cellList img.rows img.cols) s then
        countIn img (cellList img.rows img.cols) s else 0) =
      countIn img (cellList img.rows img.cols) s := by
    intro s _
    split <;> omega
  rw [Finset.sum_congr rfl h2,
    sum_countIn img m _ (fun rc hrc =>
      HL rc.1 (mem_cellList.mp hrc).1 rc.2 (mem_cellList.mp hrc).2),
    length_cellList]

/-- C6: for every label grid whose cells all hold identifiers in
`[0, region_count)` and whose per-region expected pixel counts equal the true
number of cells per identifier, a `Hash` pass over a `rows × cols` grid
completes and the sum of `pixel_count` over all records inserted into the hash
table equals `rows * cols`. -/
theorem c6_pixel_count_conservation (img : ImageGrid) (m : Nat) (expected : Nat → Nat)
    (HL : InRange img m)
    (HE : ∀ s, s < m → expected s = countIn img (cellList img.rows img.cols) s) :
    runOk (HashRun img expected m) = true ∧
    ((runTable (HashRun img expected m)).map fun e => e.2.pixel_count).sum =
      img.rows * img.cols := by
  obtain ⟨hok, hInv⟩ := hashRun_invTable img expected m HL
  rw [hok]
  refine ⟨rfl, ?_⟩
  show ((finalState img expected).table.map fun e => e.2.pixel_count).sum = _
  rw [hInv.2.1]
  exact completedSet_sum_full img m expected HL HE

theorem c6_witness :
    runOk (HashRun wImg (fun _ => 2) 2) = true ∧
    ((runTable (HashRun wImg (fun _ => 2) 2)).map fun e => e.2.pixel_count).sum =
      wImg.rows * wImg.cols :=
  c6_pixel_count_conservation wImg 2 (fun _ => 2) (by unfold InRange; decide) (by decide)

/-- C8: `calculate_hash_key` returns the sentinel `-1` exactly when the
record's `pixel_count` is `0`; a region identifier that never occurs in the
label grid leaves a record with `pixel_count = 0` after the pass, and `Hash`
never inserts such a record: every record reachable from the table has
`pixel_count > 0`. -/
theorem c8_sentinel_and_skip (img : ImageGrid) (m : Nat) (expected : Nat → Nat) (s : Nat)
    (rec : HashKey) (HL : InRange img m)
    (hnever : countIn img (cellList img.rows img.cols) s = 0) :
    (calculate_hash_key rec = -1 ↔ rec.pixel_count = 0) ∧
    runOk (HashRun img expected m) = true ∧
    (runSp (HashRun img expected m) s).pixel_count = 0 ∧
    tablePos img expected m := by
  obtain ⟨hok, hInv⟩ := hashRun_invTable img expected m HL
  refine ⟨calculate_hash_key_sentinel rec, by rw [hok]; rfl, ?_, ?_⟩
  · rw [hok]
    show ((finalState img expected).sp s).pixel_count = 0
    rw [hInv.1 s]
    exact hnever
  · show ∀ e ∈ runTable (HashRun img expected m), 0 < e.2.pixel_count
    intro e he
    rw [hok] at he
    exact (hInv.2.2.2 e he).1

theorem c8_witness :
    (calculate_hash_key { l_tot := 3, a_tot := -4, b_tot := 12, pixel_count := 0 } = -1 ↔
      ({ l_tot := 3, a_tot := -4, b_tot := 12, pixel_count := 0 } : HashKey).pixel_count = 0) ∧
    runOk (HashRun wImg (fun _ => 2) 2) = true ∧
    (runSp (HashRun wImg (fun _ => 2) 2) 5).pixel_count = 0 ∧
    tablePos wImg (fun _ => 2) 2 :=
  c8_sentinel_and_skip wImg 2 (fun _ => 2) 5
    { l_tot := 3, a_tot := -4, b_tot := 12, pixel_count := 0 }
    (by unfold InRange; decide) (by decide)

/-- C10: during a single `Hash` pass, for every expected-pixel-count array —
including inconsistent ones — each region identifier's record is appended to
the table at most once: the number of table entries equals the number of
region identifiers `s < region_count` with `1 ≤ expected s ≤` (occurrences of
`s`), because the insert fires exactly at the step where the running count
first becomes equal to the expected count and never after the running count
exceeds it. -/
theorem c10_insert_at_most_once (img : ImageGrid) (m : Nat) (expected : Nat → Nat)
    (HL : InRange img m) :
    runOk (HashRun img expected m) = true ∧
    (runTable (HashRun img expected m)).length =
      (completedSet img expected m (cellList img.rows img.cols)).card := by
  obtain ⟨hok, hInv⟩ := hashRun_invTable img expected m HL
  rw [hok]
  exact ⟨rfl, hInv.2.2.1⟩

theorem c10_witness :
    runOk (HashRun wImg (fun s => if s = 0 then 1 else 5) 2) = true ∧
    (runTable (HashRun wImg (fun s => if s = 0 then 1 else 5) 2)).length =
      (completedSet wImg (fun s => if s = 0 then 1 else 5) 2
        (cellList wImg.rows wImg.cols)).card :=
  c10_insert_at_most_once wImg 2 (fun s => if s = 0 then 1 else 5)
    (by unfold InRange; decide)

theorem countIn_pos (img : ImageGrid) (P : List (Nat × Nat)) (s : Nat) (rc : Nat × Nat)
    (hrc : rc ∈ P) (hlab : img.label rc.1 rc.2 = (s : Int)) : 0 < countIn img P s := by
  refine List.countP_pos.mpr ⟨rc, hrc, ?_⟩
  simp [hlab]

theorem invBBox_step (img : ImageGrid) (expected : Nat → Nat) (m : Nat) (HL : InRange img m)
    (P : List (Nat × Nat)) (st : AggState) (c : Nat × Nat)
    (hc : c ∈ cellList img.rows img.cols)
    (h : InvCount img P st ∧ SeenBBox img P st) :
    InvCount img (P ++ [c]) (nextState img expected st c) ∧
    SeenBBox img (P ++ [c]) (nextState img expected st c) := by
  obtain ⟨hcnt, hseen⟩ := h
  refine ⟨invCount_step img expected m HL P st c hc hcnt, ?_⟩
  intro s rc hrc hlab
  have hcast := label_cast img m HL c hc
  set s0 := (img.label c.1 c.2).toNat with hs0
  have hsp : (nextState img expected st c).sp =
      Function.update st.sp s0
        (processPixel img.imgId (img.color c.1 c.2) c.1 c.2 (st.sp s0)) := rfl
  rcases List.mem_append.mp hrc with hP | hcc
  · by_cases hs : s = s0
    · subst hs
      rw [hsp, Function.update_same]
      obtain ⟨h1, h2, h3, h4⟩ := hseen s0 rc hP hlab
      have hpos : (st.sp s0).pixel_count ≠ 0 := by
        have h5 := countIn_pos img P s0 rc hP hlab
        rw [hcnt s0]
        omega
      obtain ⟨hx, hy⟩ :=
        processPixel_ranges_pos img.imgId (img.color c.1 c.2) c.1 c.2 (st.sp s0) hpos
      refine ⟨?_, ?_, ?_, ?_⟩
      · rw [hx]
        exact le_trans (min_le_left _ _) h1
      · rw [hx]
        exact le_trans h2 (le_max_left _ _)
      · rw [hy]
        exact le_trans (min_le_left _ _) h3
      · rw [hy]
        exact le_trans h4 (le_max_left _ _)
    · rw [hsp, Function.update_noteq hs]
      exact hseen s rc hP hlab
  · have hrcc : rc = c := List.mem_singleton.mp hcc
    subst hrcc
    have hs : s = s0 := by omega
    subst hs
    rw [hsp, Function.update_same]
    by_cases h0 : (st.sp s0).pixel_count = 0
    · obtain ⟨hx, hy⟩ :=
        processPixel_ranges_zero img.imgId (img.color rc.1 rc.2) rc.1 rc.2 (st.sp s0) h0
      exact ⟨by rw [hx], by rw [hx], by rw [hy], by rw [hy]⟩
    · obtain ⟨hx, hy⟩ :=
        processPixel_ranges_pos img.imgId (img.color rc.1 rc.2) rc.1 rc.2 (st.sp s0) h0
      refine ⟨?_, ?_, ?_, ?_⟩
      · rw [hx]
        exact min_le_right _ _
      · rw [hx]
        exact le_max_right _ _
      · rw [hy]
        exact min_le_right _ _
      · rw [hy]
        exact le_max_right _ _

theorem invRegions_step (img : ImageGrid) (expected : Nat → Nat) (m : Nat)
    (HL : InRange img m)
    (HE : ∀ s, s < m → expected s = countIn img (cellList img.rows img.cols) s)
    (P : List (Nat × Nat)) (st : AggState) (c : Nat × Nat) (rest : List (Nat × Nat))
    (hsplit : P ++ c :: rest = cellList img.rows img.cols)
    (h : InvCount img P st ∧ FromRegions img expected m P st) :
    FromRegions img expected m (P ++ [c]) (nextState img expected st c) := by
  obtain ⟨hcnt, hreg⟩ := h
  have hc : c ∈ cellList img.rows img.cols := by
    rw [← hsplit]
    exact List.mem_append.mpr (Or.inr (List.mem_cons_self c rest))
  have hcast := label_cast img m HL c hc
  have hlt := label_toNat_lt img m HL c hc
  set s0 := (img.label c.1 c.2).toNat with hs0
  set curr := processPixel img.imgId (img.color c.1 c.2) c.1 c.2 (st.sp s0) with hcurr
  have hlab : img.label c.1 c.2 = (s0 : Int) := hcast.symm
  have hcc : curr.pixel_count = countIn img P s0 + 1 := by
    rw [hcurr, processPixel_pixel_count, hcnt]
  have hcons : countIn img (c :: rest) s0 = 1 + countIn img rest s0 := by
    have hsing : (c :: rest) = [c] ++ rest := rfl
    rw [hsing, countIn_append, countIn_singleton, if_pos hlab]
  have hfull : countIn img (cellList img.rows img.cols) s0 =
      countIn img P s0 + 1 + countIn img rest s0 := by
    rw [← hsplit, countIn_append, hcons]
    omega
  have hsp : (nextState img expected st c).sp = Function.update st.sp s0 curr := rfl
  have htab : (nextState img expected st c).table =
      if curr.pixel_count = expected s0 then
        (if calculate_hash_key curr ≠ -1 then
          st.table ++ [(calculate_hash_key curr, curr)]
        else st.table)
      else st.table := rfl
  intro e he
  by_cases hfin : curr.pixel_count = expected s0
  · have hkey : calculate_hash_key curr ≠ -1 := by
      intro hk
      have h0 := (calculate_hash_key_sentinel curr).mp hk
      omega
    rw [htab, if_pos hfin, if_pos hkey] at he
    rcases List.mem_append.mp he with h1 | h2
    · obtain ⟨s1, hs1m, hs1e, hs1c⟩ := hreg e h1
      have hs1ne : s1 ≠ s0 := by
        intro heq
        subst heq
        omega
      have hlabne : ¬img.label c.1 c.2 = (s1 : Int) := by
        rw [hlab]
        intro heq
        have hss : s0 = s1 := by exact_mod_cast heq
        omega
      refine ⟨s1, hs1m, ?_, ?_⟩
      · rw [hsp, Function.update_noteq hs1ne]
        exact hs1e
      · rw [countIn_append, countIn_singleton, if_neg hlabne]
        omega
    · have he2 : e = (calculate_hash_key curr, curr) := List.mem_singleton.mp h2
      subst he2
      have hEs0 := HE s0 hlt
      refine ⟨s0, hlt, ?_, ?_⟩
      · rw [hsp, Function.update_same]
      · rw [countIn_append, countIn_singleton, if_pos hlab]
        omega
  · rw [htab, if_neg hfin] at he
    obtain ⟨s1, hs1m, hs1e, hs1c⟩ := hreg e he
    have hs1ne : s1 ≠ s0 := by
      intro heq
      subst heq
      omega
    have hlabne : ¬img.label c.1 c.2 = (s1 : Int) := by
      rw [hlab]
      intro heq
      have hss : s0 = s1 := by exact_mod_cast heq
      omega
    refine ⟨s1, hs1m, ?_, ?_⟩
    · rw [hsp, Function.update_noteq hs1ne]
      exact hs1e
    · rw [countIn_append, countIn_singleton, if_neg hlabne]
      omega

theorem prefixRun_bbox (img : ImageGrid) (expected : Nat → Nat) (m : Nat) (HL : InRange img m)
    (P T : List (Nat × Nat)) (hsplit : P ++ T = cellList img.rows img.cols) :
    P.foldlM (hashStep img expected m) initState =
      .ok (P.foldl (nextState img expected) initState) ∧
    InvCount img P (P.foldl (nextState img expected) initState) ∧
    SeenBBox img P (P.foldl (nextState img expected) initState) := by
  have h := foldl_inv img expected m
    (fun Q st => InvCount img Q st ∧ SeenBBox img Q st)
    (fun done c rest st hs hInv =>
      invBBox_step img expected m HL done st c
        (by
          rw [← hs]
          exact List.mem_append.mpr (Or.inr (List.mem_cons_self c rest))) hInv)
    HL P [] T initState (by simpa using hsplit)
    ⟨invCount_init img, fun s rc hrc _ => absurd hrc (List.not_mem_nil rc)⟩
  simpa using h

theorem fullRun_regions (img : ImageGrid) (expected : Nat → Nat) (m : Nat)
    (HL : InRange img m)
    (HE : ∀ s, s < m → expected s = countIn img (cellList img.rows img.cols) s) :
    HashRun img expected m = .ok (finalState img expected) ∧
    SeenBBox img (cellList img.rows img.cols) (finalState img expected) ∧
    FromRegions img expected m (cellList img.rows img.cols) (finalState img expected) := by
  have h := foldl_inv img expected m
    (fun Q st => (InvCount img Q st ∧ SeenBBox img Q st) ∧
      FromRegions img expected m Q st)
    (fun done c rest st hs hInv =>
      ⟨invBBox_step img expected m HL done st c
          (by
            rw [← hs]
            exact List.mem_append.mpr (Or.inr (List.mem_cons_self c rest))) hInv.1,
        invRegions_step img expected m HL HE done st c rest hs ⟨hInv.1.1, hInv.2⟩⟩)
    HL (cellList img.rows img.cols) [] [] initState (by simp)
    ⟨⟨invCount_init img, fun s rc hrc _ => absurd hrc (List.not_mem_nil rc)⟩,
      fun e he => absurd he (List.not_mem_nil e)⟩
  refine ⟨by simpa [HashRun, finalState] using h.1, ?_, ?_⟩
  · have h2 := h.2
    simpa [finalState] using h2.1.2
  · have h2 := h.2
    simpa [finalState] using h2.2

/-- C7: for every region record produced with `pixel_count > 0`, every grid
cell labeled with that region's identifier lies in the record's bounding box
`[x_min, x_max] × [y_min, y_max]`, and the containment holds at every point
during the pass for the cells seen so far: after any prefix `P` of the
row-major traversal, each cell of `P` lies in the bounding box of its region's
running record; every record of the final table is some region's final record,
and the final record of region `s` contains every cell labeled `s`. -/
theorem c7_bbox_contains_region_cells (img : ImageGrid) (m : Nat) (expected : Nat → Nat)
    (P T : List (Nat × Nat)) (s : Nat) (rc : Nat × Nat) (e : Int × HashKey)
    (HL : InRange img m)
    (HE : ∀ s', s' < m → expected s' = countIn img (cellList img.rows img.cols) s')
    (hsplit : P ++ T = cellList img.rows img.cols)
    (hrc : rc ∈ P) (hlab : img.label rc.1 rc.2 = (s : Int)) :
    P.foldlM (hashStep img expected m) initState =
      .ok (P.foldl (nextState img expected) initState) ∧
    inBBox ((P.foldl (nextState img expected) initState).sp s) rc ∧
    (e ∈ runTable (HashRun img expected m) → regionOfTable img expected m e) ∧
    (e ∈ runTable (HashRun img expected m) →
      e.2 = runSp (HashRun img expected m) s → inBBox e.2 rc) := by
  obtain ⟨hpok, hpcnt, hpseen⟩ := prefixRun_bbox img expected m HL P T hsplit
  obtain ⟨hok, hseen, hregs⟩ := fullRun_regions img expected m HL HE
  refine ⟨hpok, hpseen s rc hrc hlab, ?_, ?_⟩
  · intro he
    rw [hok] at he
    obtain ⟨s1, hs1m, hs1e, _⟩ := hregs e he
    exact ⟨s1, hs1m, by rw [hok]; exact hs1e⟩
  · intro he heq
    rw [hok] at heq
    have hrc_full : rc ∈ cellList img.rows img.cols := by
      rw [← hsplit]
      exact List.mem_append.mpr (Or.inl hrc)
    have := hseen s rc hrc_full hlab
    rw [heq]
    exact this

theorem c7_witness :
    (cellList wImg.rows wImg.cols).foldlM (hashStep wImg (fun _ => 2) 2) initState =
      .ok ((cellList wImg.rows wImg.cols).foldl (nextState wImg (fun _ => 2)) initState) ∧
    inBBox (((cellList wImg.rows wImg.cols).foldl (nextState wImg (fun _ => 2)) initState).sp 0)
      (1, 0) ∧
    regionOfTable wImg (fun _ => 2) 2
      (1700, { l_tot := 20, a_tot := 40, b_tot := 60, x_range := (0, 0), y_range := (0, 1),
               original_image := 7, pixel_count := 2 }) ∧
    inBBox
      ({ l_tot := 20, a_tot := 40, b_tot := 60, x_range := (0, 0), y_range := (0, 1),
         original_image := 7, pixel_count := 2 } : HashKey) (1, 0) := by
  have h := c7_bbox_contains_region_cells wImg 2 (fun _ => 2)
    (cellList wImg.rows wImg.cols) [] 0 (1, 0)
    (1700, { l_tot := 20, a_tot := 40, b_tot := 60, x_range := (0, 0), y_range := (0, 1),
             original_image := 7, pixel_count := 2 })
    (by unfold InRange; decide) (by decide) (by simp) (by decide) (by decide)
  exact ⟨h.1, h.2.1, h.2.2.1 (by decide), h.2.2.2 (by decide) (by decide)⟩

theorem invColor_step (img : ImageGrid) (expected : Nat → Nat) (m : Nat)
    (HL : InRange img m) (HC : ColorBounds img)
    (P : List (Nat × Nat)) (st : AggState) (c : Nat × Nat)
    (hc : c ∈ cellList img.rows img.cols)
    (h : InvCount img P st ∧ InvColor img P st) :
    InvCount img (P ++ [c]) (nextState img expected st c) ∧
    InvColor img (P ++ [c]) (nextState img expected st c) := by
  obtain ⟨hcnt, hcol⟩ := h
  refine ⟨invCount_step img expected m HL P st c hc hcnt, ?_⟩
  intro s
  have hcast := label_cast img m HL c hc
  have hpix := HC c.1 (mem_cellList.mp hc).1 c.2 (mem_cellList.mp hc).2
  set s0 := (img.label c.1 c.2).toNat with hs0
  have hsp : (nextState img expected st c).sp =
      Function.update st.sp s0
        (processPixel img.imgId (img.color c.1 c.2) c.1 c.2 (st.sp s0)) := rfl
  rw [countIn_append, countIn_singleton]
  by_cases hs : s = s0
  · subst hs
    rw [hsp, Function.update_same, if_pos hcast.symm]
    rw [processPixel_l_tot, processPixel_a_tot, processPixel_b_tot]
    have hc0 := hcol s0
    omega
  · have hne : ¬img.label c.1 c.2 = (s : Int) := by
      rw [← hcast]
      intro heq
      have hss : s0 = s := by exact_mod_cast heq
      omega
    rw [hsp, Function.update_noteq hs, if_neg hne]
    have hc0 := hcol s
    omega

/-- C9: for every image whose dimensions are at most the reference resolution
(`cols ≤ 3840`, `rows ≤ 2160`) with 8-bit color channels, the per-region color
accumulators `l_tot`, `a_tot`, `b_tot` stay within `[0, 255·3840·2160]` at
every point of the aggregation pass; this bound fits in the signed 64-bit
accumulator type (it is below `2^63`), so the accumulation never overflows. -/
theorem c9_accumulators_bounded (img : ImageGrid) (m : Nat) (expected : Nat → Nat)
    (P T : List (Nat × Nat)) (s : Nat) (HL : InRange img m) (HC : ColorBounds img)
    (hw : img.cols ≤ 3840) (hh : img.rows ≤ 2160)
    (hsplit : P ++ T = cellList img.rows img.cols) :
    P.foldlM (hashStep img expected m) initState =
      .ok (P.foldl (nextState img expected) initState) ∧
    (0 ≤ ((P.foldl (nextState img expected) initState).sp s).l_tot ∧
      ((P.foldl (nextState img expected) initState).sp s).l_tot ≤ 255 * 3840 * 2160) ∧
    (0 ≤ ((P.foldl (nextState img expected) initState).sp s).a_tot ∧
      ((P.foldl (nextState img expected) initState).sp s).a_tot ≤ 255 * 3840 * 2160) ∧
    (0 ≤ ((P.foldl (nextState img expected) initState).sp s).b_tot ∧
      ((P.foldl (nextState img expected) initState).sp s).b_tot ≤ 255 * 3840 * 2160) ∧
    (255 * 3840 * 2160 : Int) < 2 ^ 63 := by
  have h := foldl_inv img expected m
    (fun Q st => InvCount img Q st ∧ InvColor img Q st)
    (fun done c rest st hs hInv =>
      invColor_step img expected m HL HC done st c
        (by
          rw [← hs]
          exact List.mem_append.mpr (Or.inr (List.mem_cons_self c rest))) hInv)
    HL P [] T initState (by simpa using hsplit)
    ⟨invCount_init img, fun s' => by
      refine ⟨le_refl 0, ?_, le_refl 0, ?_, le_refl 0, ?_⟩ <;>
        simp [initState, countIn_nil]⟩
  obtain ⟨hok, hinv⟩ := h
  rw [List.nil_append] at hinv
  have hcs := hinv.2 s
  have h1 : countIn img P s ≤ P.length := List.countP_le_length _
  have h2 : P.length ≤ 3840 * 2160 := by
    have hlen := congrArg List.length hsplit
    rw [List.length_append, length_cellList] at hlen
    have h3 : img.rows * img.cols ≤ 2160 * 3840 := Nat.mul_le_mul hh hw
    omega
  refine ⟨hok, ⟨hcs.1, ?_⟩, ⟨hcs.2.2.1, ?_⟩, ⟨hcs.2.2.2.2.1, ?_⟩, by norm_num⟩ <;> omega

theorem c9_witness :
    (cellList wImg.rows wImg.cols).foldlM (hashStep wImg (fun _ => 2) 2) initState =
      .ok ((cellList wImg.rows wImg.cols).foldl (nextState wImg (fun _ => 2)) initState) ∧
    (0 ≤ (((cellList wImg.rows wImg.cols).foldl (nextState wImg (fun _ => 2)) initState).sp 0).l_tot ∧
      (((cellList wImg.rows wImg.cols).foldl (nextState wImg (fun _ => 2)) initState).sp 0).l_tot ≤
        255 * 3840 * 2160) ∧
    (0 ≤ (((cellList wImg.rows wImg.cols).foldl (nextState wImg (fun _ => 2)) initState).sp 0).a_tot ∧
      (((cellList wImg.rows wImg.cols).foldl (nextState wImg (fun _ => 2)) initState).sp 0).a_tot ≤
        255 * 3840 * 2160) ∧
    (0 ≤ (((cellList wImg.rows wImg.cols).foldl (nextState wImg (fun _ => 2)) initState).sp 0).b_tot ∧
      (((cellList wImg.rows wImg.cols).foldl (nextState wImg (fun _ => 2)) initState).sp 0).b_tot ≤
        255 * 3840 * 2160) ∧
    (255 * 3840 * 2160 : Int) < 2 ^ 63 :=
  c9_accumulators_bounded wImg 2 (fun _ => 2) (cellList wImg.rows wImg.cols) [] 0
    (by unfold InRange; decide) (by unfold ColorBounds; decide) (by decide) (by decide)
    (by simp)

theorem voteStep_foldl (L : List HashKey) (mc : Nat → Nat) (imgId : Nat) :
    (L.foldl voteStep mc) imgId =
      mc imgId + L.countP fun m => decide (m.original_image = imgId) := by
  induction L generalizing mc with
  | nil => simp
  | cons x L ih =>
    rw [List.foldl_cons, ih, List.countP_cons]
    by_cases hx : x.original_image = imgId
    · subst hx
      rw [show (voteStep mc x) x.original_image = mc x.original_image + 1 from
        Function.update_same _ _ _]
      simp
      omega
    · rw [show (voteStep mc x) imgId = mc imgId from
        Function.update_noteq (Ne.symm hx) _ _]
      simp [hx]

theorem queryStep_apply (table : List (Int × HashKey)) (mc : Nat → Nat) (q : HashKey)
    (imgId : Nat) :
    (queryStep table mc q) imgId =
      mc imgId +
        (if calculate_hash_key q = -1 then 0
         else (bucket table (calculate_hash_key q)).countP
           fun m => decide (m.original_image = imgId)) := by
  unfold queryStep
  by_cases hq : calculate_hash_key q = -1
  · rw [if_pos hq, if_pos hq]
    omega
  · rw [if_neg hq, if_neg hq, voteStep_foldl]

theorem matchCounts_eq_sum (table : List (Int × HashKey)) (queries : List HashKey)
    (imgId : Nat) :
    matchCounts table queries imgId =
      (queries.map fun q =>
        if calculate_hash_key q = -1 then 0
        else (bucket table (calculate_hash_key q)).countP
          fun m => decide (m.original_image = imgId)).sum := by
  suffices h : ∀ mc : Nat → Nat, (queries.foldl (queryStep table) mc) imgId =
      mc imgId + (queries.map fun q =>
        if calculate_hash_key q = -1 then 0
        else (bucket table (calculate_hash_key q)).countP
          fun m => decide (m.original_image = imgId)).sum by
    have h0 := h fun _ => 0
    simpa [matchCounts] using h0
  induction queries with
  | nil => intro mc; simp
  | cons q qs ih =>
    intro mc
    rw [List.foldl_cons, ih, queryStep_apply, List.map_cons, List.sum_cons]
    omega

theorem collidingPairs_eq_sum (table : List (Int × HashKey)) (queries : List HashKey)
    (imgId : Nat) (hwf : ∀ e ∈ table, e.1 = calculate_hash_key e.2) :
    collidingPairs table queries imgId =
      (queries.map fun q =>
        if calculate_hash_key q = -1 then 0
        else (bucket table (calculate_hash_key q)).countP
          fun m => decide (m.original_image = imgId)).sum := by
  unfold collidingPairs
  induction queries with
  | nil => simp [allPairs]
  | cons q qs ih =>
    have hsplit : allPairs (q :: qs) table = (table.map fun e => (q, e)) ++ allPairs qs table := by
      simp [allPairs]
    rw [hsplit, List.countP_append, ih, List.map_cons, List.sum_cons, List.countP_map]
    have hper : (table.countP
        ((fun p => decide (calculate_hash_key p.1 = calculate_hash_key p.2.2 ∧
          calculate_hash_key p.1 ≠ -1 ∧ p.2.2.original_image = imgId)) ∘ fun e => (q, e))) =
        (if calculate_hash_key q = -1 then 0
         else (bucket table (calculate_hash_key q)).countP
           fun m => decide (m.original_image = imgId)) := by
      by_cases hq : calculate_hash_key q = -1
      · rw [if_pos hq]
        refine List.countP_eq_zero.mpr ?_
        intro e he
        simp [hq]
      · rw [if_neg hq]
        unfold bucket
        rw [List.countP_map, List.countP_filter]
        refine List.countP_congr ?_
        intro e he
        have h1 := hwf e he
        simp only [Function.comp, decide_eq_true_eq, Bool.and_eq_true]
        constructor
        · rintro ⟨ha, hb, hc⟩
          exact ⟨by simpa using hc, by simp [h1, ha]⟩
        · rintro ⟨ha, hb⟩
          have hb' : e.1 = calculate_hash_key q := by simpa using hb
          exact ⟨by rw [← hb', h1], hq, by simpa using ha⟩
    omega

/-- C3: during retrieval, for each query record whose key is not the sentinel,
an indexed image's vote count is incremented once for every record of that
key's bucket belonging to the image; so a candidate's final tally equals the
number of (query record, indexed record) pairs whose keys are equal and
non-sentinel with the indexed record owned by that image — a single query
region colliding with five indexed records of one image contributes five
votes. -/
theorem c3_votes_count_colliding_pairs (table : List (Int × HashKey))
    (queries : List HashKey) (imgId : Nat)
    (hwf : ∀ e ∈ table, e.1 = calculate_hash_key e.2) :
    matchCounts table queries imgId = collidingPairs table queries imgId := by
  rw [matchCounts_eq_sum, collidingPairs_eq_sum table queries imgId hwf]

theorem c3_witness :
    matchCounts
        (List.replicate 5
          (1700, { l_tot := 20, a_tot := 40, b_tot := 60, x_range := (0, 0),
                   y_range := (0, 1), original_image := 7, pixel_count := 2 }))
        [{ l_tot := 22, a_tot := 41, b_tot := 58, x_range := (0, 1), y_range := (0, 0),
           original_image := 9, pixel_count := 2 }] 7 =
      collidingPairs
        (List.replicate 5
          (1700, { l_tot := 20, a_tot := 40, b_tot := 60, x_range := (0, 0),
                   y_range := (0, 1), original_image := 7, pixel_count := 2 }))
        [{ l_tot := 22, a_tot := 41, b_tot := 58, x_range := (0, 1), y_range := (0, 0),
           original_image := 9, pixel_count := 2 }] 7 :=
  c3_votes_count_colliding_pairs
    (List.replicate 5
      (1700, { l_tot := 20, a_tot := 40, b_tot := 60, x_range := (0, 0),
               y_range := (0, 1), original_image := 7, pixel_count := 2 }))
    [{ l_tot := 22, a_tot := 41, b_tot := 58, x_range := (0, 1), y_range := (0, 0),
       original_image := 9, pixel_count := 2 }] 7 (by decide)

example :
    matchCounts
        (List.replicate 5
          (1700, { l_tot := 20, a_tot := 40, b_tot := 60, x_range := (0, 0),
                   y_range := (0, 1), original_image := 7, pixel_count := 2 }))
        [{ l_tot := 22, a_tot := 41, b_tot := 58, x_range := (0, 1), y_range := (0, 0),
           original_image := 9, pixel_count := 2 }] 7 = 5 := by decide

theorem bmStep_snd (acc : Option Nat × Nat) (e : Nat × Nat) :
    (bmStep acc e).2 = max acc.2 e.2 := by
  unfold bmStep
  split <;> omega

theorem bm_foldl_snd_le (entries : List (Nat × Nat)) (acc : Option Nat × Nat) :
    acc.2 ≤ (entries.foldl bmStep acc).2 ∧
    ∀ e ∈ entries, e.2 ≤ (entries.foldl bmStep acc).2 := by
  induction entries generalizing acc with
  | nil => simp
  | cons x l ih =>
    rw [List.foldl_cons]
    obtain ⟨h1, h2⟩ := ih (bmStep acc x)
    have hx1 : acc.2 ≤ (bmStep acc x).2 := by rw [bmStep_snd]; omega
    have hx2 : x.2 ≤ (bmStep acc x).2 := by rw [bmStep_snd]; omega
    refine ⟨le_trans hx1 h1, ?_⟩
    intro e he
    rcases List.mem_cons.mp he with rfl | hl
    · exact le_trans hx2 h1
    · exact h2 e hl

theorem bm_none (entries : List (Nat × Nat)) (acc : Option Nat × Nat)
    (h : (entries.foldl bmStep acc).1 = none) :
    acc.1 = none ∧ ∀ e ∈ entries, e.2 ≤ acc.2 := by
  induction entries generalizing acc with
  | nil => exact ⟨h, fun e he => absurd he (List.not_mem_nil e)⟩
  | cons x l ih =>
    rw [List.foldl_cons] at h
    obtain ⟨h1, h2⟩ := ih (bmStep acc x) h
    by_cases hx : acc.2 < x.2
    · exfalso
      have hstep : (bmStep acc x).1 = some x.1 := by simp [bmStep, hx]
      rw [hstep] at h1
      exact Option.some_ne_none x.1 h1
    · have hstep : bmStep acc x = acc := by simp [bmStep, hx]
      rw [hstep] at h1 h2
      refine ⟨h1, ?_⟩
      intro e he
      rcases List.mem_cons.mp he with rfl | hl
      · omega
      · exact h2 e hl

theorem bm_some (entries : List (Nat × Nat)) :
    ∀ (acc : Option Nat × Nat) (i v : Nat), entries.foldl bmStep acc = (some i, v) →
      (some i, v) = acc ∨ ((i, v) ∈ entries ∧ acc.2 < v) := by
  induction entries with
  | nil =>
    intro acc i v h
    exact Or.inl h.symm
  | cons x l ih =>
    intro acc i v h
    rw [List.foldl_cons] at h
    rcases ih (bmStep acc x) i v h with h1 | h1
    · by_cases hx : acc.2 < x.2
      · have hstep : bmStep acc x = (some x.1, x.2) := by simp [bmStep, hx]
        rw [hstep] at h1
        have hi : i = x.1 := by
          have := congrArg Prod.fst h1
          simpa using this
        have hv : v = x.2 := by
          have := congrArg Prod.snd h1
          simpa using this
        subst hi
        subst hv
        exact Or.inr ⟨List.mem_cons_self x l, hx⟩
      · have hstep : bmStep acc x = acc := by simp [bmStep, hx]
        rw [hstep] at h1
        exact Or.inl h1
    · obtain ⟨hmem, hlt⟩ := h1
      refine Or.inr ⟨List.mem_cons_of_mem x hmem, ?_⟩
      have hstep : acc.2 ≤ (bmStep acc x).2 := by rw [bmStep_snd]; omega
      omega

theorem bm_fires_none (l : List (Nat × Nat)) :
    ∀ (acc : Option Nat × Nat), (∀ x ∈ l, x.2 ≤ acc.2) → l.foldl bmStep acc = acc := by
  induction l with
  | nil => intro acc _; rfl
  | cons x l ihl =>
    intro acc hall
    have hx := hall x (List.mem_cons_self x l)
    have hstep : bmStep acc x = acc := by
      unfold bmStep
      rw [if_neg (by omega)]
    rw [List.foldl_cons, hstep]
    exact ihl acc fun y hy => hall y (List.mem_cons_of_mem x hy)

/-- C4: after all query records are processed, retrieval returns a source
image identifier whose vote total equals the maximum over all candidates and
is strictly positive — the returned entry is in the tally, its count is
positive and no entry's count exceeds it — and it reports "no match" exactly
when zero votes were cast for every candidate. -/
theorem c4_best_match_max_or_none (entries : List (Nat × Nat)) (i v : Nat)
    (e : Nat × Nat) :
    ((bestMatch entries).1 = none ↔ ∀ x ∈ entries, x.2 = 0) ∧
    (bestMatch entries = (some i, v) →
      ((i, v) ∈ entries ∧ 0 < v ∧ (e ∈ entries → e.2 ≤ v))) := by
  constructor
  · constructor
    · intro h
      obtain ⟨-, h2⟩ := bm_none entries (none, 0) h
      intro x hx
      have := h2 x hx
      omega
    · intro h
      have hfold : entries.foldl bmStep ((none : Option Nat), 0) = (none, 0) :=
        bm_fires_none entries (none, 0) fun x hx => by
          have := h x hx
          omega
      show (entries.foldl bmStep (none, 0)).1 = none
      rw [hfold]
  · intro hbm
    have h1 := bm_some entries (none, 0) i v hbm
    rcases h1 with h1 | h1
    · exfalso
      have := congrArg Prod.fst h1
      simp at this
    · obtain ⟨hmem, hpos⟩ := h1
      have h2 := (bm_foldl_snd_le entries (none, 0)).2
      refine ⟨hmem, by simpa using hpos, ?_⟩
      intro he
      have h3 := h2 e he
      have h4 : (entries.foldl bmStep ((none : Option Nat), 0)).2 = v := by
        show (bestMatch entries).2 = v
        rw [hbm]
      omega

theorem c4_witness :
    (bestMatch [(3, 0), (4, 0)]).1 = none ∧
    (5, 4) ∈ [(2, 1), (5, 4), (9, 2)] ∧ 0 < 4 ∧ (9, 2).2 ≤ 4 := by
  have ha := (c4_best_match_max_or_none [(3, 0), (4, 0)] 0 0 (0, 0)).1.mpr (by decide)
  have hb := (c4_best_match_max_or_none [(2, 1), (5, 4), (9, 2)] 5 4 (9, 2)).2 (by decide)
  exact ⟨ha, hb.1, hb.2.1, hb.2.2 (by decide)⟩

/-- C5 (refuting evaluation): the source performs no bounds check on
`superpixels[sp]`, so an out-of-range region identifier is an out-of-bounds
access (undefined behavior), modeled here as the error outcome at that cell;
the claim's second half fails even so: the record of the region finalized
before the invalid cell has already been pushed onto the hash table, so the
aborted pass does leave a record behind rather than leaving the index
untouched. -/
theorem c5_invalid_label_inserts_before_dying :
    runOk (HashRun c5Img (fun _ => 1) 1) = false ∧
    runTable (HashRun c5Img (fun _ => 1) 1) =
      [(1700, { l_tot := 10, a_tot := 20, b_tot := 30, x_range := (0, 0), y_range := (0, 0),
                original_image := 3, pixel_count := 1 })] := by
  constructor
  · decide
  · decide

end SLIC
